import Mathlib

/-!
Verification of the 4D scheduling core of `simple-4d`.

Shallow embedding notes:
* JavaScript `Date` values are modelled by their millisecond timestamps as
  rationals (`ℚ`); date comparison in the source is numeric comparison of
  timestamps.
* Host-library calls that are opaque to the algorithm are abstracted as
  function parameters: `new Date(string)` parsing becomes a parameter
  `pd : Option String → ℚ`, and `new RegExp(pattern, 'i')` compilation
  becomes a parameter `cr : String → Option (String → Bool)` where `none`
  models a compilation failure (the `catch` branch).
* The JS `Map` used by the link store is modelled as an insertion-ordered
  association list.
* Fields of `ScheduleTask` that no claim depends on (duration,
  percentComplete, predecessors, resources, notes) are omitted from the
  embedding; they are plain data never inspected by the modelled code paths.
-/

/-- A schedule task as produced by the MS Project parser
(`src/types/schedule.ts` / `bim.ts`): synthesized `id`, stable `taskId`,
name, date range, outline position and child tasks. -/
inductive ScheduleTask : Type where
  | mk (id taskId name : String) (startDate endDate : ℚ) (outlineLevel : Int)
      (outlineNumber : Option String) (children : List ScheduleTask)

def ScheduleTask.id : ScheduleTask → String
  | .mk i _ _ _ _ _ _ _ => i

def ScheduleTask.taskId : ScheduleTask → String
  | .mk _ t _ _ _ _ _ _ => t

def ScheduleTask.name : ScheduleTask → String
  | .mk _ _ n _ _ _ _ _ => n

def ScheduleTask.startDate : ScheduleTask → ℚ
  | .mk _ _ _ s _ _ _ _ => s

def ScheduleTask.endDate : ScheduleTask → ℚ
  | .mk _ _ _ _ e _ _ _ => e

def ScheduleTask.outlineLevel : ScheduleTask → Int
  | .mk _ _ _ _ _ l _ _ => l

def ScheduleTask.outlineNumber : ScheduleTask → Option String
  | .mk _ _ _ _ _ _ o _ => o

def ScheduleTask.children : ScheduleTask → List ScheduleTask
  | .mk _ _ _ _ _ _ _ cs => cs

/-- `parent.children.push(child)` repeated over a batch: append the given
children after any existing ones. -/
def ScheduleTask.withChildren : ScheduleTask → List ScheduleTask → ScheduleTask
  | .mk i t n s e l o cs, cs2 => .mk i t n s e l o (cs ++ cs2)

/-- Default task used to totalize index lookups (never reached on in-range
indices). -/
def defTask : ScheduleTask := .mk "" "" "" 0 0 1 none []

instance : Inhabited ScheduleTask := ⟨defTask⟩

/- `flattenTasks` from `msproject-parser/index.ts` (also duplicated in
`scheduling-4d/index.ts`): depth-first traversal pushing each task before
its children. `flattenOne` is the inner `traverse`. -/
mutual

def flattenOne : ScheduleTask → List ScheduleTask
  | .mk i t n s e l o cs => .mk i t n s e l o cs :: flattenList cs

def flattenList : List ScheduleTask → List ScheduleTask
  | [] => []
  | t :: rest => flattenOne t ++ flattenList rest

end

def flattenTasks (tasks : List ScheduleTask) : List ScheduleTask :=
  flattenList tasks

theorem flattenList_append (l1 l2 : List ScheduleTask) :
    flattenList (l1 ++ l2) = flattenList l1 ++ flattenList l2 := by
  induction l1 with
  | nil => simp [flattenList]
  | cons t rest ih => simp [flattenList, ih]

/-- The timeline state owned by the scheduling module
(`TimelineState` in `src/types/schedule.ts`). -/
structure TimelineState where
  currentDate : ℚ
  startDate : ℚ
  endDate : ℚ
  isPlaying : Bool
  playbackSpeed : ℚ
deriving DecidableEq

/-- One invocation of the `animate` closure in `startAnimation`
(`scheduling-4d/index.ts:327-360`): if not playing, do nothing; otherwise
advance `currentDate` by `deltaSeconds * playbackSpeed` days, clamping to
`endDate` (and pausing) when the advanced date strictly exceeds `endDate`.
`deltaMs` is the measured elapsed real time in milliseconds. -/
def tick (st : TimelineState) (deltaMs : ℚ) : TimelineState :=
  if st.isPlaying = false then st
  else
    let deltaSeconds := deltaMs / 1000
    let daysToAdd := deltaSeconds * st.playbackSpeed
    let newDate := st.currentDate + daysToAdd * (24 * 60 * 60 * 1000)
    if st.endDate < newDate then
      { st with isPlaying := false, currentDate := st.endDate }
    else
      { st with currentDate := newDate }

/-- `calculateProjectTimeline` (`scheduling-4d/index.ts:107-131`): on a
non-empty flattened task list, fold min over start dates and max over end
dates (seeded with the first task's dates) and set
`currentDate := startDate := min`; on an empty list, return early leaving
the state untouched. -/
def calculateProjectTimeline (st : TimelineState) (tasks : List ScheduleTask) :
    TimelineState :=
  match flattenTasks tasks with
  | [] => st
  | t0 :: rest =>
    let flat := t0 :: rest
    let minDate := flat.foldl
      (fun m t => if t.startDate < m then t.startDate else m) t0.startDate
    let maxDate := flat.foldl
      (fun m t => if m < t.endDate then t.endDate else m) t0.endDate
    { st with startDate := minDate, endDate := maxDate, currentDate := minDate }

/-- `loadTasks` (`scheduling-4d/index.ts:50-64`), restricted to its effect on
the timeline state: it rebuilds the task map and then calls
`calculateProjectTimeline`; it never touches `isPlaying`. -/
def loadTasksTimeline (st : TimelineState) (tasks : List ScheduleTask) :
    TimelineState :=
  calculateProjectTimeline st tasks

/-- Status classification implicit in the branches of `updateVisualization`
(`scheduling-4d/index.ts:375-412`); the branch comments in the source name
the three statuses. -/
inductive VisStatus : Type where
  | notStarted
  | inProgress
  | completed
deriving DecidableEq

def grayColor : Nat := 0x888888

def greenColor : Nat := 0x88ff88

def yellowColor : Nat := 0xffff88

structure VisualState where
  status : VisStatus
  opacity : ℚ
  color : Nat
deriving DecidableEq

/-- The per-task classification performed inside the loop of
`updateVisualization` (`scheduling-4d/index.ts:375-412`):
`isStarted = currentDate >= startDate`, `isCompleted = currentDate >= endDate`,
then not-started / completed / in-progress visual triples. -/
def taskVisual (currentDate startDate endDate : ℚ) : VisualState :=
  let isStarted : Bool := decide (startDate ≤ currentDate)
  let isCompleted : Bool := decide (endDate ≤ currentDate)
  if !isStarted then ⟨.notStarted, 0.2, grayColor⟩
  else if isCompleted then ⟨.completed, 1, greenColor⟩
  else ⟨.inProgress, 1, yellowColor⟩

/-- `EntityInfo` (`scheduling-4d/index.ts:16-21`): a candidate model entity.
`name?` is an optional string; the JS falsiness test on it is modelled by
`none` or the empty string. -/
structure EntityInfo where
  globalId : String
  expressId : Int
  type : String
  name : Option String
deriving DecidableEq

/-- Provenance of a task-entity link (`linkType` field of `TaskEntityLink`,
`src/types/bim.ts:84-92`). -/
inductive LinkType : Type where
  | manual
  | rule
deriving DecidableEq

/-- `TaskEntityLink` (`src/types/bim.ts:84-92`). -/
structure TaskEntityLink where
  id : String
  taskId : String
  entityGlobalId : String
  entityExpressId : Int
  entityType : String
  entityName : Option String
  linkType : LinkType
deriving DecidableEq

/-- `ruleType` of `LinkRule`; `other` models the `default` branch of the
runtime `switch` in `doesEntityMatchRule` for values outside the declared
union. -/
inductive RuleType : Type where
  | property_match
  | name_pattern
  | type_filter
  | other (s : String)
deriving DecidableEq

/-- `ruleConfig` of `LinkRule` (`src/types/bim.ts`): all fields optional. -/
structure RuleConfig where
  propertyName : Option String
  propertyValue : Option String
  pattern : Option String
  ifcTypes : Option (List String)
deriving DecidableEq

/-- `LinkRule` (`src/types/bim.ts`). -/
structure LinkRule where
  id : String
  taskId : String
  ruleType : RuleType
  ruleConfig : RuleConfig
  isActive : Bool
deriving DecidableEq

/-- The `entityLinks : Map<string, TaskEntityLink[]>` of the scheduling
module, modelled as an insertion-ordered association list (JS `Map`
preserves insertion order; `set` on an existing key updates in place). -/
abbrev LinkStore : Type := List (String × List TaskEntityLink)

/-- `Map.get`: first binding for the key, if any. -/
def storeGet (st : LinkStore) (k : String) : Option (List TaskEntityLink) :=
  match st with
  | [] => none
  | (k', v') :: rest => if k' = k then some v' else storeGet rest k

/-- `Map.set`: replace the binding in place if the key is present, else
append a new binding at the end. -/
def storeSet (st : LinkStore) (k : String) (v : List TaskEntityLink) :
    LinkStore :=
  match st with
  | [] => [(k, v)]
  | (k', v') :: rest =>
    if k' = k then (k, v) :: rest else (k', v') :: storeSet rest k v

/-- The link object constructed at the top of `linkEntityToTask`
(`scheduling-4d/index.ts:136-145`); `now` stands for `Date.now()`, used only
inside the synthesized id. -/
def mkLink (taskId : String) (e : EntityInfo) (now : Int) : TaskEntityLink :=
  { id := "link_" ++ taskId ++ "_" ++ toString e.expressId ++ "_" ++ toString now
    taskId := taskId
    entityGlobalId := e.globalId
    entityExpressId := e.expressId
    entityType := e.type
    entityName := e.name
    linkType := .manual }

/-- `linkEntityToTask` (`scheduling-4d/index.ts:136-162`). Returns the new
store together with the `onLinksUpdated` notification payload (`none` when
the duplicate check suppressed the append and no notification fired). -/
def linkEntityToTask (st : LinkStore) (taskId : String) (e : EntityInfo)
    (now : Int) : LinkStore × Option (String × List TaskEntityLink) :=
  let st1 := if (storeGet st taskId).isSome then st else storeSet st taskId []
  let links := (storeGet st1 taskId).getD []
  if links.any (fun l => l.entityExpressId == e.expressId) then
    (st1, none)
  else
    (storeSet st1 taskId (links ++ [mkLink taskId e now]),
      some (taskId, links ++ [mkLink taskId e now]))

/-- `unlinkEntityFromTask` (`scheduling-4d/index.ts:167-177`). When the map
has no entry for the task it returns before notifying; otherwise it stores
the filtered list and notifies with it. -/
def unlinkEntityFromTask (st : LinkStore) (taskId : String)
    (entityExpressId : Int) : LinkStore × Option (String × List TaskEntityLink) :=
  match storeGet st taskId with
  | none => (st, none)
  | some links =>
    let filtered := links.filter (fun l => l.entityExpressId ≠ entityExpressId)
    (storeSet st taskId filtered, some (taskId, filtered))

/-- The `linkRules : Map<string, LinkRule[]>` of the module, as an
association list. -/
abbrev RuleStore : Type := List (String × List LinkRule)

/-- `getTaskRules` (`scheduling-4d/index.ts:217-219`):
`linkRules.get(taskId) || []`. -/
def getTaskRules (rs : RuleStore) (taskId : String) : List LinkRule :=
  match rs with
  | [] => []
  | (k', v') :: rest => if k' = taskId then v' else getTaskRules rest taskId

/-- `doesEntityMatchRule` (`scheduling-4d/index.ts:241-267`).
`cr` abstracts `new RegExp(pattern, 'i')`: `cr pat = none` models a thrown
compile error (caught, yielding `false`), `cr pat = some test` models a
compiled regex whose `test` is `test`. The JS falsiness guards
`!entity.name || !rule.ruleConfig.pattern` are the `none`/empty-string
checks. -/
def doesEntityMatchRule (cr : String → Option (String → Bool))
    (entity : EntityInfo) (rule : LinkRule) : Bool :=
  match rule.ruleType with
  | .type_filter =>
    (rule.ruleConfig.ifcTypes.map (fun ts => ts.contains entity.type)).getD false
  | .name_pattern =>
    match entity.name, rule.ruleConfig.pattern with
    | some nm, some pat =>
      if nm = "" ∨ pat = "" then false
      else
        match cr pat with
        | some test => test nm
        | none => false
    | _, _ => false
  | .property_match => false
  | .other _ => false

/-- Inner loop of `applyRulesToEntities` for one active rule: link every
matching entity. -/
def applyRuleToEntities (cr : String → Option (String → Bool))
    (rule : LinkRule) (st : LinkStore) (taskId : String)
    (entities : List EntityInfo) (now : Int) : LinkStore :=
  entities.foldl
    (fun s e =>
      if doesEntityMatchRule cr e rule then (linkEntityToTask s taskId e now).1
      else s)
    st

/-- `applyRulesToEntities` (`scheduling-4d/index.ts:224-236`): for each rule
of the task in insertion order, skipping inactive ones, link every matching
entity in input order. `now` stands for the `Date.now()` timestamps used in
synthesized link ids (their values never influence behaviour). -/
def applyRulesToEntities (cr : String → Option (String → Bool))
    (rs : RuleStore) (st : LinkStore) (taskId : String)
    (entities : List EntityInfo) (now : Int) : LinkStore :=
  (getTaskRules rs taskId).foldl
    (fun s rule =>
      if rule.isActive then applyRuleToEntities cr rule s taskId entities now
      else s)
    st

/-- Number of links stored for the pair `(taskId, expressId)`. -/
def countPair (st : LinkStore) (taskId : String) (eid : Int) : Nat :=
  ((storeGet st taskId).getD []).countP (fun l => l.entityExpressId == eid)

/-- Every link in the store carries `linkType = manual`. -/
def allManual (st : LinkStore) : Prop :=
  ∀ p ∈ st, ∀ l ∈ p.2, l.linkType = LinkType.manual

/-- A raw XML scalar after `fast-xml-parser` value coercion: digit content
becomes a number, everything else stays a string. Only the integer and
string cases arise for the fields the parser inspects. -/
inductive JSValue : Type where
  | num (n : Int)
  | str (s : String)
deriving DecidableEq

/-- JS truthiness of a scalar: `0` and the empty string are falsy. -/
def JSValue.truthy : JSValue → Bool
  | .num n => n != 0
  | .str s => s != ""

/-- JS `String(v)` on a scalar. -/
def jsToString : JSValue → String
  | .num n => toString n
  | .str s => s

/-- One raw `<Task>` record as handed to `parseTasks`
(`msproject-parser/index.ts:68-101`); absent XML elements are `none`.
Fields the modelled code never inspects (Duration, PercentComplete,
PredecessorLink, Assignments, Notes) are omitted. -/
structure TaskRecord where
  UID : Option JSValue
  Name : Option String
  Start : Option String
  Finish : Option String
  OutlineLevel : Option Int
  OutlineNumber : Option String
deriving DecidableEq

/-- Pass 1 body of `parseTasks` for one record: `if (!taskData.UID) continue;`
then construct the `ScheduleTask` with `children: []`. `pd` abstracts
`parseDate` (`new Date(...)` with now-fallback). `OutlineLevel` falls back
to 1 when falsy (absent or 0), `OutlineNumber` is forced to `undefined`
when falsy (`|| undefined`). -/
def mkScheduleTask (pd : Option String → ℚ) (r : TaskRecord) :
    Option ScheduleTask :=
  match r.UID with
  | none => none
  | some u =>
    if u.truthy then
      some (.mk ("task_" ++ jsToString u) (jsToString u)
        ((r.Name.filter (· != "")).getD "Unnamed Task")
        (pd r.Start) (pd r.Finish)
        ((r.OutlineLevel.filter (· != 0)).getD 1)
        (r.OutlineNumber.filter (· != ""))
        [])
    else none

/-- Pass 1 of `parseTasks`: the flat `tasks` array. -/
def parseFlat (pd : Option String → ℚ) (records : List TaskRecord) :
    List ScheduleTask :=
  records.filterMap (mkScheduleTask pd)

/-- First index in the list whose element satisfies `p` — the semantics of
the source's linear `for` search returning the first hit. -/
def findIdxFrom (p : α → Bool) : List α → Option Nat
  | [] => none
  | a :: l => if p a then some 0 else (findIdxFrom p l).map (· + 1)

/-- The candidate-parent test inside `findParentTask`
(`msproject-parser/index.ts:126-144`): one outline level up, both outline
numbers truthy, and the child's number extends the parent's by a dot. -/
def isParentOf (p t : ScheduleTask) : Bool :=
  p.outlineLevel == t.outlineLevel - 1 &&
    (match t.outlineNumber, p.outlineNumber with
     | some tn, some pn => tn != "" && pn != "" && tn.startsWith (pn ++ ".")
     | _, _ => false)

/-- `findParentTask`, returning the index of the first matching candidate
(the source returns the first matching object reference; on a list the
first matching index identifies it). -/
def findParentIdx (ts : List ScheduleTask) (t : ScheduleTask) : Option Nat :=
  if t.outlineLevel ≤ 1 then none
  else findIdxFrom (fun p => isParentOf p t) ts

/-- Outline level of the task at index `k` (default beyond the list). -/
def levelAt (ts : List ScheduleTask) (k : Nat) : Int :=
  (ts[k]?.getD defTask).outlineLevel

/-- Index of the parent assigned to the task at index `j` in pass 2. -/
def parentIdx (ts : List ScheduleTask) (j : Nat) : Option Nat :=
  ts[j]?.bind (fun t => findParentIdx ts t)

/-- Indices whose parent is index `i`, in list order — the order in which
pass 2 pushes children. -/
def childIdxs (ts : List ScheduleTask) (i : Nat) : List Nat :=
  (List.range ts.length).filter (fun j => parentIdx ts j == some i)

/-- Indices that become roots, in list order. -/
def rootIdxs (ts : List ScheduleTask) : List Nat :=
  (List.range ts.length).filter (fun j => parentIdx ts j == none)

/-- Termination measure for walking down the hierarchy: the number of
positions holding a strictly higher outline level. A child (one level
deeper) has a strictly smaller measure than its parent. -/
def dM (ts : List ScheduleTask) (i : Nat) : Nat :=
  ((List.range ts.length).filter (fun k => levelAt ts i < levelAt ts k)).length

theorem findIdxFrom_some {p : α → Bool} :
    ∀ {l : List α} {i : Nat}, findIdxFrom p l = some i →
      ∃ a, l[i]? = some a ∧ p a = true := by
  intro l
  induction l with
  | nil => intro i h; simp [findIdxFrom] at h
  | cons a rest ih =>
    intro i h
    by_cases hp : p a
    · simp [findIdxFrom, hp] at h
      subst h
      exact ⟨a, by simp, hp⟩
    · simp [findIdxFrom, hp] at h
      obtain ⟨i', hi', rfl⟩ := h
      obtain ⟨b, hb, hpb⟩ := ih hi'
      exact ⟨b, by simpa using hb, hpb⟩

theorem parentIdx_spec {ts : List ScheduleTask} {j i : Nat}
    (h : parentIdx ts j = some i) :
    j < ts.length ∧ i < ts.length ∧ levelAt ts i = levelAt ts j - 1 := by
  unfold parentIdx at h
  cases hj : ts[j]? with
  | none => rw [hj] at h; simp at h
  | some t =>
    rw [hj] at h
    simp only [Option.some_bind] at h
    unfold findParentIdx at h
    by_cases hlev : t.outlineLevel ≤ 1
    · simp [hlev] at h
    · simp only [hlev, if_false] at h
      obtain ⟨pt, hpt, hcond⟩ := findIdxFrom_some h
      have hjlen : j < ts.length := (List.getElem?_eq_some.1 hj).1
      have hilen : i < ts.length := (List.getElem?_eq_some.1 hpt).1
      refine ⟨hjlen, hilen, ?_⟩
      unfold isParentOf at hcond
      have hlv : pt.outlineLevel = t.outlineLevel - 1 := by
        rw [Bool.and_eq_true] at hcond
        have h1 := hcond.1
        simpa using h1
      unfold levelAt
      rw [hj, hpt]
      simpa using hlv

theorem dM_le (ts : List ScheduleTask) (k : Nat) : dM ts k ≤ ts.length := by
  unfold dM
  calc ((List.range ts.length).filter
        (fun k' => decide (levelAt ts k < levelAt ts k'))).length
      ≤ (List.range ts.length).length := List.length_filter_le _ _
    _ = ts.length := List.length_range ts.length

theorem countP_or_disjoint {p q : α → Bool} :
    ∀ {l : List α}, (∀ x ∈ l, ¬(p x = true ∧ q x = true)) →
      l.countP (fun x => p x || q x) = l.countP p + l.countP q := by
  intro l
  induction l with
  | nil => intro _; simp
  | cons a rest ih =>
    intro hdisj
    have hrest : ∀ x ∈ rest, ¬(p x = true ∧ q x = true) :=
      fun x hx => hdisj x (List.mem_cons_of_mem a hx)
    by_cases hpa : p a
    · have hqa : q a = false := by
        cases hq : q a with
        | false => rfl
        | true => exact absurd ⟨hpa, hq⟩ (hdisj a (List.mem_cons_self a rest))
      simp [List.countP_cons, hpa, hqa, ih hrest]
      omega
    · by_cases hqa : q a
      · simp [List.countP_cons, Bool.eq_false_iff.2 hpa, hqa, ih hrest]
        omega
      · simp [List.countP_cons, Bool.eq_false_iff.2 hpa,
          Bool.eq_false_iff.2 hqa, ih hrest]

theorem countP_mono_of_imp {p q : α → Bool} :
    ∀ {l : List α}, (∀ x ∈ l, p x = true → q x = true) →
      l.countP p ≤ l.countP q := by
  intro l
  induction l with
  | nil => intro _; simp
  | cons a rest ih =>
    intro himp
    have hrest : ∀ x ∈ rest, p x = true → q x = true :=
      fun x hx => himp x (List.mem_cons_of_mem a hx)
    have hr := ih hrest
    by_cases hpa : p a
    · have hqa : q a = true := himp a (List.mem_cons_self a rest) hpa
      simp [List.countP_cons, hpa, hqa]
      omega
    · by_cases hqa : q a
      · simp [List.countP_cons, Bool.eq_false_iff.2 hpa, hqa]
        omega
      · simp [List.countP_cons, Bool.eq_false_iff.2 hpa, Bool.eq_false_iff.2 hqa]
        omega

/-- A child occupies a strictly smaller measure than its parent: one level
deeper means strictly fewer positions above it. -/
theorem child_dM_lt {ts : List ScheduleTask} {j i : Nat}
    (h : parentIdx ts j = some i) : dM ts j < dM ts i := by
  obtain ⟨hj, hi, hlev⟩ := parentIdx_spec h
  have hlt : levelAt ts i < levelAt ts j := by omega
  unfold dM
  rw [← List.countP_eq_length_filter, ← List.countP_eq_length_filter]
  have key : (List.range ts.length).countP
        (fun k => decide (levelAt ts j < levelAt ts k))
      + (List.range ts.length).countP (fun k => k == j)
      ≤ (List.range ts.length).countP
        (fun k => decide (levelAt ts i < levelAt ts k)) := by
    rw [← countP_or_disjoint]
    · apply countP_mono_of_imp
      intro x _ hx
      simp only [Bool.or_eq_true, decide_eq_true_eq, beq_iff_eq] at hx ⊢
      rcases hx with hx | hx
      · exact lt_trans hlt hx
      · subst hx; exact hlt
    · intro x _ hx
      obtain ⟨h1, h2⟩ := hx
      simp only [decide_eq_true_eq] at h1
      simp only [beq_iff_eq] at h2
      subst h2
      exact lt_irrefl _ h1
  have hcount : 0 < (List.range ts.length).countP (fun k => k == j) := by
    rw [List.countP_pos_iff]
    exact ⟨j, List.mem_range.2 hj, by simp⟩
  omega

theorem mem_childIdxs {ts : List ScheduleTask} {i j : Nat}
    (h : j ∈ childIdxs ts i) : parentIdx ts j = some i := by
  unfold childIdxs at h
  have := (List.mem_filter.1 h).2
  simpa using this

/-- Index multiset of the subtree rooted at `i`, in the order produced by
the pass-2 construction: the node itself, then each child subtree in list
order. -/
def subtreeIdx (ts : List ScheduleTask) (i : Nat) : List Nat :=
  i :: ((childIdxs ts i).attach.map (fun j => subtreeIdx ts j.1)).flatten
termination_by dM ts i
decreasing_by exact child_dM_lt (mem_childIdxs j.2)

/-- The `ScheduleTask` object at index `i` after pass 2 finished mutating
`children`: the pass-1 node with each child subtree (in push order)
appended to its children. -/
def buildNode (ts : List ScheduleTask) (i : Nat) : ScheduleTask :=
  (ts[i]?.getD defTask).withChildren
    ((childIdxs ts i).attach.map (fun j => buildNode ts j.1))
termination_by dM ts i
decreasing_by exact child_dM_lt (mem_childIdxs j.2)

/-- Pass 2 of `parseTasks` (`msproject-parser/index.ts:103-120`): the
returned `rootTasks`, with the hierarchy of mutated `children` made
explicit. -/
def buildHierarchy (flat : List ScheduleTask) : List ScheduleTask :=
  (rootIdxs flat).map (buildNode flat)

/-- `parseTasks` on an array of task records: pass 1 then pass 2. -/
def parseTasks (pd : Option String → ℚ) (records : List TaskRecord) :
    List ScheduleTask :=
  buildHierarchy (parseFlat pd records)

/-- `k` lies in the subtree rooted at `i`: either it is `i`, or its parent
chain reaches `i`. Follows the (finite) parent chain upward. -/
def inSubtree (ts : List ScheduleTask) (k i : Nat) : Bool :=
  if k = i then true
  else
    match h : parentIdx ts k with
    | some p => inSubtree ts p i
    | none => false
termination_by ts.length - dM ts k
decreasing_by
  have h1 : dM ts k < dM ts p := child_dM_lt h
  have h2 : dM ts p ≤ ts.length := dM_le ts p
  omega

theorem subtreeIdx_def (ts : List ScheduleTask) (i : Nat) :
    subtreeIdx ts i = i :: ((childIdxs ts i).map (subtreeIdx ts)).flatten := by
  rw [subtreeIdx]
  congr 1
  rw [List.attach_map_coe]

theorem buildNode_def (ts : List ScheduleTask) (i : Nat) :
    buildNode ts i =
      (ts[i]?.getD defTask).withChildren ((childIdxs ts i).map (buildNode ts)) := by
  rw [buildNode]
  congr 1
  rw [List.attach_map_coe]

theorem inSubtree_self (ts : List ScheduleTask) (i : Nat) :
    inSubtree ts i i = true := by
  rw [inSubtree]
  simp

theorem inSubtree_of_ne_none {ts : List ScheduleTask} {k i : Nat}
    (hk : k ≠ i) (hp : parentIdx ts k = none) : inSubtree ts k i = false := by
  rw [inSubtree]
  simp only [if_neg hk]
  split <;> simp_all

theorem inSubtree_of_ne_some {ts : List ScheduleTask} {k i p : Nat}
    (hk : k ≠ i) (hp : parentIdx ts k = some p) :
    inSubtree ts k i = inSubtree ts p i := by
  rw [inSubtree]
  simp only [if_neg hk]
  split <;> simp_all

theorem countP_congr_eq {p q : α → Bool} {l : List α}
    (h : ∀ a ∈ l, p a = q a) : l.countP p = l.countP q :=
  List.countP_congr (fun a ha => by rw [h a ha])

theorem sum_ite_eq_countP {p : α → Bool} :
    ∀ {l : List α}, (l.map (fun a => if p a = true then (1 : Nat) else 0)).sum
      = l.countP p := by
  intro l
  induction l with
  | nil => simp
  | cons a rest ih =>
    by_cases h : p a <;> simp [List.countP_cons, h, ih] <;> omega

theorem childIdxs_nodup (ts : List ScheduleTask) (i : Nat) :
    (childIdxs ts i).Nodup :=
  (List.nodup_range ts.length).filter _

theorem rootIdxs_nodup (ts : List ScheduleTask) : (rootIdxs ts).Nodup :=
  (List.nodup_range ts.length).filter _

theorem mem_childIdxs_iff {ts : List ScheduleTask} {i j : Nat} :
    j ∈ childIdxs ts i ↔ parentIdx ts j = some i := by
  constructor
  · exact mem_childIdxs
  · intro h
    unfold childIdxs
    rw [List.mem_filter]
    exact ⟨List.mem_range.2 (parentIdx_spec h).1, by simp [h]⟩

theorem mem_rootIdxs_iff {ts : List ScheduleTask} {j : Nat} :
    j ∈ rootIdxs ts ↔ j < ts.length ∧ parentIdx ts j = none := by
  unfold rootIdxs
  rw [List.mem_filter]
  simp [List.mem_range]

theorem parentIdx_of_ge {ts : List ScheduleTask} {k : Nat}
    (h : ts.length ≤ k) : parentIdx ts k = none := by
  unfold parentIdx
  rw [List.getElem?_eq_none h]
  rfl

/-- Walking up the parent chain strictly increases the measure: anything in
the subtree of `i` other than `i` itself sits strictly below `i`. -/
theorem inSubtree_dM_lt {ts : List ScheduleTask} :
    ∀ m k i, ts.length - dM ts k = m → inSubtree ts k i = true →
      k = i ∨ dM ts k < dM ts i := by
  intro m
  induction m using Nat.strong_induction_on with
  | _ m ih =>
    intro k i hm hsub
    by_cases hk : k = i
    · exact Or.inl hk
    · cases hp : parentIdx ts k with
      | none => rw [inSubtree_of_ne_none hk hp] at hsub; cases hsub
      | some p =>
        rw [inSubtree_of_ne_some hk hp] at hsub
        have hkp : dM ts k < dM ts p := child_dM_lt hp
        have hpn : dM ts p ≤ ts.length := dM_le ts p
        have hrec := ih (ts.length - dM ts p) (by omega) p i rfl hsub
        rcases hrec with rfl | hlt
        · exact Or.inr hkp
        · exact Or.inr (lt_trans hkp hlt)

/-- A strict subtree member is never the root of that subtree's parent set:
`i` is not in the subtree of any of its own children. -/
theorem not_inSubtree_of_child {ts : List ScheduleTask} {i j : Nat}
    (hj : j ∈ childIdxs ts i) : inSubtree ts i j = false := by
  cases hsub : inSubtree ts i j with
  | false => rfl
  | true =>
    have hdj : dM ts j < dM ts i := child_dM_lt (mem_childIdxs hj)
    rcases inSubtree_dM_lt (ts.length - dM ts i) i j rfl hsub with rfl | hlt
    · exact absurd hdj (lt_irrefl _)
    · exact absurd (lt_trans hdj hlt) (lt_irrefl _)

/-- For `k ≠ i`, the number of children of `i` whose subtree contains `k`
is 1 when `k` lies in the subtree of `i` and 0 otherwise: the parent chain
of `k` passes through exactly one child of `i` on its way to `i`. -/
theorem countP_children_inSubtree {ts : List ScheduleTask} :
    ∀ m k, ts.length - dM ts k = m → ∀ i, k ≠ i →
      (childIdxs ts i).countP (fun j => inSubtree ts k j)
        = if inSubtree ts k i then 1 else 0 := by
  intro m
  induction m using Nat.strong_induction_on with
  | _ m ih =>
    intro k hm i hk
    cases hp : parentIdx ts k with
    | none =>
      rw [inSubtree_of_ne_none hk hp, if_neg (by simp)]
      rw [List.countP_eq_zero]
      intro j hj
      have hkj : k ≠ j := by
        rintro rfl
        rw [mem_childIdxs hj] at hp
        cases hp
      rw [inSubtree_of_ne_none hkj hp]
      simp
    | some p =>
      rw [inSubtree_of_ne_some hk hp]
      by_cases hpi : p = i
      · subst hpi
        rw [inSubtree_self, if_pos rfl]
        have hkmem : k ∈ childIdxs ts p := mem_childIdxs_iff.2 hp
        have hcongr : ∀ j ∈ childIdxs ts p,
            inSubtree ts k j = (j == k) := by
          intro j hj
          by_cases hjk : j = k
          · subst hjk; simp [inSubtree_self]
          · have hkj : k ≠ j := fun e => hjk e.symm
            rw [inSubtree_of_ne_some hkj hp]
            have := not_inSubtree_of_child hj
            simp [this, hjk]
        rw [countP_congr_eq hcongr]
        exact List.count_eq_one_of_mem (childIdxs_nodup ts p) hkmem
      · have hcongr : ∀ j ∈ childIdxs ts i,
            inSubtree ts k j = inSubtree ts p j := by
          intro j hj
          have hkj : k ≠ j := by
            rintro rfl
            rw [mem_childIdxs hj] at hp
            exact hpi (Option.some.inj hp).symm
          exact inSubtree_of_ne_some hkj hp
        rw [countP_congr_eq hcongr]
        have hkp : dM ts k < dM ts p := child_dM_lt hp
        have hpn : dM ts p ≤ ts.length := dM_le ts p
        exact ih (ts.length - dM ts p) (by omega) p rfl i hpi

/-- Each index occurs in the subtree list of `i` exactly once when it lies
in that subtree, and not at all otherwise. -/
theorem count_subtreeIdx {ts : List ScheduleTask} :
    ∀ m i, dM ts i = m → ∀ k,
      List.count k (subtreeIdx ts i) = if inSubtree ts k i then 1 else 0 := by
  intro m
  induction m using Nat.strong_induction_on with
  | _ m ih =>
    intro i hm k
    rw [subtreeIdx_def, List.count_cons, List.count_flatten]
    have hmaps : ((childIdxs ts i).map (subtreeIdx ts)).map (List.count k)
        = (childIdxs ts i).map (fun j => if inSubtree ts k j then 1 else 0) := by
      rw [List.map_map]
      apply List.map_congr_left
      intro j hj
      have hdj : dM ts j < dM ts i := child_dM_lt (mem_childIdxs hj)
      exact ih (dM ts j) (hm ▸ hdj) j rfl k
    rw [hmaps, sum_ite_eq_countP]
    by_cases hk : k = i
    · subst hk
      have hzero : (childIdxs ts k).countP (fun j => inSubtree ts k j) = 0 := by
        rw [List.countP_eq_zero]
        intro j hj
        simp [not_inSubtree_of_child hj]
      rw [hzero, inSubtree_self]
      simp
    · rw [countP_children_inSubtree (ts.length - dM ts k) k rfl i hk]
      have hik : ¬ i = k := fun e => hk e.symm
      simp [beq_iff_eq, hk, hik]

/-- Every in-range index lies in the subtree of exactly one root. -/
theorem countP_roots_inSubtree {ts : List ScheduleTask} :
    ∀ m k, ts.length - dM ts k = m → k < ts.length →
      (rootIdxs ts).countP (fun r => inSubtree ts k r) = 1 := by
  intro m
  induction m using Nat.strong_induction_on with
  | _ m ih =>
    intro k hm hk
    cases hp : parentIdx ts k with
    | none =>
      have hkmem : k ∈ rootIdxs ts := mem_rootIdxs_iff.2 ⟨hk, hp⟩
      have hcongr : ∀ r ∈ rootIdxs ts, inSubtree ts k r = (r == k) := by
        intro r hr
        by_cases hrk : r = k
        · subst hrk; simp [inSubtree_self]
        · have hkr : k ≠ r := fun e => hrk e.symm
          rw [inSubtree_of_ne_none hkr hp]
          simp [hrk]
      rw [countP_congr_eq hcongr]
      exact List.count_eq_one_of_mem (rootIdxs_nodup ts) hkmem
    | some p =>
      have hcongr : ∀ r ∈ rootIdxs ts, inSubtree ts k r = inSubtree ts p r := by
        intro r hr
        have hkr : k ≠ r := by
          rintro rfl
          rw [(mem_rootIdxs_iff.1 hr).2] at hp
          cases hp
        exact inSubtree_of_ne_some hkr hp
      rw [countP_congr_eq hcongr]
      have hkp : dM ts k < dM ts p := child_dM_lt hp
      have hpn : dM ts p ≤ ts.length := dM_le ts p
      exact ih (ts.length - dM ts p) (by omega) p rfl (parentIdx_spec hp).2.1

/-- An out-of-range index lies in no root subtree. -/
theorem countP_roots_inSubtree_ge {ts : List ScheduleTask} {k : Nat}
    (hk : ts.length ≤ k) :
    (rootIdxs ts).countP (fun r => inSubtree ts k r) = 0 := by
  rw [List.countP_eq_zero]
  intro r hr
  have hrlen : r < ts.length := (mem_rootIdxs_iff.1 hr).1
  have hkr : k ≠ r := by omega
  rw [inSubtree_of_ne_none hkr (parentIdx_of_ge hk)]
  simp

/-- The forest built by pass 2 is a partition: concatenating the index
lists of all root subtrees is a permutation of all indices. -/
theorem forest_perm (ts : List ScheduleTask) :
    ((rootIdxs ts).map (subtreeIdx ts)).flatten.Perm (List.range ts.length) := by
  rw [List.perm_iff_count]
  intro k
  rw [List.count_flatten, List.map_map]
  have hmaps : (List.count k ∘ subtreeIdx ts) = fun j =>
      if inSubtree ts k j then 1 else 0 := by
    funext j
    exact count_subtreeIdx (dM ts j) j rfl k
  rw [hmaps, sum_ite_eq_countP]
  by_cases hk : k < ts.length
  · rw [countP_roots_inSubtree (ts.length - dM ts k) k rfl hk,
      List.count_eq_one_of_mem (List.nodup_range ts.length) (List.mem_range.2 hk)]
  · rw [countP_roots_inSubtree_ge (Nat.le_of_not_lt hk),
      List.count_eq_zero_of_not_mem (fun hmem => hk (List.mem_range.1 hmem))]

theorem flattenList_eq_join (l : List ScheduleTask) :
    flattenList l = (l.map flattenOne).flatten := by
  induction l with
  | nil => simp [flattenList]
  | cons t rest ih => simp [flattenList, ih]

theorem taskId_withChildren (t : ScheduleTask) (cs : List ScheduleTask) :
    (t.withChildren cs).taskId = t.taskId := by
  cases t
  simp [ScheduleTask.withChildren, ScheduleTask.taskId]

theorem flattenOne_withChildren (t : ScheduleTask) (cs : List ScheduleTask)
    (h : t.children = []) :
    flattenOne (t.withChildren cs) = t.withChildren cs :: flattenList cs := by
  cases t with
  | mk i tid n s e l o cs0 =>
    simp [ScheduleTask.children] at h
    subst h
    simp [ScheduleTask.withChildren, flattenOne]

/-- taskId of the pass-1 task at a given index. -/
def taskIdAt (ts : List ScheduleTask) (k : Nat) : String :=
  (ts[k]?.getD defTask).taskId

/-- The flatten of a built subtree lists exactly the taskIds of the subtree
index list, provided all pass-1 nodes start with empty `children`. -/
theorem flattenOne_buildNode {ts : List ScheduleTask}
    (hflat : ∀ t ∈ ts, t.children = []) :
    ∀ m i, dM ts i = m →
      (flattenOne (buildNode ts i)).map ScheduleTask.taskId
        = (subtreeIdx ts i).map (taskIdAt ts) := by
  intro m
  induction m using Nat.strong_induction_on with
  | _ m ih =>
    intro i hm
    have hchild : (ts[i]?.getD defTask).children = [] := by
      cases hi : ts[i]? with
      | none => simp [defTask, ScheduleTask.children]
      | some u =>
        have : u ∈ ts := by
          have := List.getElem?_eq_some.1 hi
          obtain ⟨hlen, hg⟩ := this
          exact hg ▸ List.getElem_mem hlen
        simp [hflat u this]
    rw [buildNode_def, subtreeIdx_def,
      flattenOne_withChildren _ _ hchild]
    simp only [List.map_cons, taskId_withChildren]
    rw [flattenList_eq_join, List.map_map, List.map_flatten, List.map_flatten,
      List.map_map, List.map_map]
    congr 1
    congr 1
    apply List.map_congr_left
    intro j hj
    have hdj : dM ts j < dM ts i := child_dM_lt (mem_childIdxs hj)
    simpa using ih (dM ts j) (hm ▸ hdj) j rfl

theorem map_taskIdAt_range (l : List ScheduleTask) :
    (List.range l.length).map (taskIdAt l) = l.map ScheduleTask.taskId := by
  induction l with
  | nil => simp
  | cons t rest ih =>
    rw [List.length_cons, List.range_succ_eq_map, List.map_cons, List.map_map]
    have h0 : taskIdAt (t :: rest) 0 = t.taskId := by
      simp [taskIdAt]
    have hsucc : (taskIdAt (t :: rest) ∘ Nat.succ) = taskIdAt rest := by
      funext k
      simp [taskIdAt]
    rw [h0, hsucc, ih, List.map_cons]

/-- taskId contributed by a raw record: present exactly when the record
carries a truthy unique identifier. -/
def recordTaskId (r : TaskRecord) : Option String :=
  r.UID.bind (fun u => if u.truthy then some (jsToString u) else none)

theorem parseFlat_map_taskId (pd : Option String → ℚ)
    (records : List TaskRecord) :
    (parseFlat pd records).map ScheduleTask.taskId
      = records.filterMap recordTaskId := by
  unfold parseFlat
  rw [List.map_filterMap]
  apply List.filterMap_congr
  intro r _
  unfold mkScheduleTask recordTaskId
  cases r.UID with
  | none => simp
  | some u =>
    by_cases hu : u.truthy <;> simp [hu, ScheduleTask.taskId]

theorem pass1_children_nil {pd : Option String → ℚ}
    {records : List TaskRecord} :
    ∀ t ∈ parseFlat pd records, t.children = [] := by
  intro t ht
  unfold parseFlat at ht
  obtain ⟨r, _, hr⟩ := List.mem_filterMap.1 ht
  unfold mkScheduleTask at hr
  cases hUID : r.UID with
  | none => rw [hUID] at hr; cases hr
  | some u =>
    rw [hUID] at hr
    by_cases hu : u.truthy
    · simp [hu] at hr
      subst hr
      simp [ScheduleTask.children]
    · simp [hu] at hr

/-- C3: for every flat list of task records, flattening the tree produced by
the parser's two-pass hierarchy construction yields exactly the same
multiset of taskIds as the input records that carry a (truthy) identifier:
each appears exactly once, none duplicated, none lost. (Proved without any
consistency assumption on outline numbers, hence in particular for every
list with consistent outline numbers.) -/
theorem c3_hierarchy_roundtrip (pd : Option String → ℚ)
    (records : List TaskRecord) :
    ((flattenTasks (parseTasks pd records)).map ScheduleTask.taskId).Perm
      (records.filterMap recordTaskId) := by
  have hnil := @pass1_children_nil pd records
  have step1 : (flattenTasks (parseTasks pd records)).map ScheduleTask.taskId
      = ((rootIdxs (parseFlat pd records)).map
          (subtreeIdx (parseFlat pd records))).flatten.map
          (taskIdAt (parseFlat pd records)) := by
    unfold parseTasks buildHierarchy flattenTasks
    rw [flattenList_eq_join, List.map_map, List.map_flatten, List.map_map,
      List.map_flatten, List.map_map]
    apply congrArg List.flatten
    apply List.map_congr_left
    intro r _
    simpa using flattenOne_buildNode hnil (dM (parseFlat pd records) r) r rfl
  have hperm := (forest_perm (parseFlat pd records)).map
    (taskIdAt (parseFlat pd records))
  rw [map_taskIdAt_range, parseFlat_map_taskId] at hperm
  rw [step1]
  exact hperm

/-- C1: during playback, a tick advances `currentDate` by
`elapsed_seconds * playbackSpeed` days; when the advanced date would exceed
`endDate` the tick sets `currentDate = endDate` exactly and flips
`isPlaying` to false, so `currentDate` never exceeds `endDate` while
playing. -/
theorem c1_tick_clamp (st : TimelineState) (deltaMs : ℚ)
    (hplay : st.isPlaying = true) :
    (st.endDate <
        st.currentDate + deltaMs / 1000 * st.playbackSpeed * (24 * 60 * 60 * 1000) →
      (tick st deltaMs).currentDate = st.endDate ∧
      (tick st deltaMs).isPlaying = false) ∧
    (st.currentDate + deltaMs / 1000 * st.playbackSpeed * (24 * 60 * 60 * 1000)
        ≤ st.endDate →
      (tick st deltaMs).currentDate
        = st.currentDate + deltaMs / 1000 * st.playbackSpeed * (24 * 60 * 60 * 1000) ∧
      (tick st deltaMs).isPlaying = true) ∧
    (st.currentDate ≤ st.endDate → (tick st deltaMs).currentDate ≤ st.endDate) := by
  unfold tick
  rw [hplay]
  simp only [Bool.true_eq_false, if_false]
  refine ⟨?_, ?_, ?_⟩
  · intro hover
    rw [if_pos hover]
    exact ⟨rfl, rfl⟩
  · intro hunder
    rw [if_neg (not_lt.2 hunder)]
    exact ⟨rfl, rfl⟩
  · intro hcur
    by_cases hover : st.endDate <
        st.currentDate + deltaMs / 1000 * st.playbackSpeed * (24 * 60 * 60 * 1000)
    · rw [if_pos hover]
    · rw [if_neg hover]
      exact not_lt.1 hover

/-- Witness for C1: with `playbackSpeed = 2` and 5 elapsed real seconds the
date advances by exactly 10 simulated days (in ms), and a tick that would
overrun the end clamps to `endDate` and stops. -/
theorem c1_tick_clamp_witness :
    (tick ⟨0, 0, 8640000000, true, 2⟩ 5000).currentDate = 864000000 ∧
    (tick ⟨8000000000, 0, 8640000000, true, 2⟩ 5000).currentDate = 8640000000 ∧
    (tick ⟨8000000000, 0, 8640000000, true, 2⟩ 5000).isPlaying = false := by
  have h1 := c1_tick_clamp ⟨0, 0, 8640000000, true, 2⟩ 5000 rfl
  have h2 := c1_tick_clamp ⟨8000000000, 0, 8640000000, true, 2⟩ 5000 rfl
  refine ⟨?_, ?_, ?_⟩
  · have hstep := (h1.2.1 (by norm_num)).1
    rw [hstep]
    norm_num
  · exact (h2.1 (by norm_num)).1
  · exact (h2.1 (by norm_num)).2

/-- C5: for a linked task with `startDate = D1 < D2 = endDate`, the
visualization classification yields in-progress/opacity 1/yellow at
`currentDate = D1`, completed/opacity 1/green at `currentDate = D2`, and
not-started/opacity 0.2/gray for `currentDate < D1`. -/
theorem c5_status_boundaries (D1 D2 c : ℚ) (h : D1 < D2) :
    taskVisual D1 D1 D2 = ⟨.inProgress, 1, yellowColor⟩ ∧
    taskVisual D2 D1 D2 = ⟨.completed, 1, greenColor⟩ ∧
    (c < D1 → taskVisual c D1 D2 = ⟨.notStarted, 0.2, grayColor⟩) := by
  unfold taskVisual
  refine ⟨?_, ?_, ?_⟩
  · simp [le_refl, not_le.2 h]
  · simp [le_of_lt h]
  · intro hc
    simp [not_le.2 hc]

/-- Witness for C5 at `D1 = 0`, `D2 = 1`, `c = -1`. -/
theorem c5_status_boundaries_witness :
    taskVisual 0 0 1 = ⟨.inProgress, 1, yellowColor⟩ ∧
    taskVisual 1 0 1 = ⟨.completed, 1, greenColor⟩ ∧
    taskVisual (-1) 0 1 = ⟨.notStarted, 0.2, grayColor⟩ := by
  have h := c5_status_boundaries 0 1 (-1) (by norm_num)
  exact ⟨h.1, h.2.1, h.2.2 (by norm_num)⟩

/-- C8: `loadTasks` with an empty task list leaves `startDate`, `endDate`
and `currentDate` unchanged from their prior values. -/
theorem c8_loadTasks_empty_preserves (st : TimelineState) :
    (loadTasksTimeline st []).startDate = st.startDate ∧
    (loadTasksTimeline st []).endDate = st.endDate ∧
    (loadTasksTimeline st []).currentDate = st.currentDate := by
  unfold loadTasksTimeline calculateProjectTimeline flattenTasks
  exact ⟨rfl, rfl, rfl⟩

/-- C10: a task record whose UID is falsy — absent, the empty string, or
the number 0 — produces no `ScheduleTask` in pass 1; the record is skipped
exactly as if it carried no identifier. -/
theorem c10_falsy_uid_skipped (pd : Option String → ℚ) (r : TaskRecord)
    (rs1 rs2 : List TaskRecord)
    (h : r.UID = none ∨ r.UID = some (.str "") ∨ r.UID = some (.num 0)) :
    mkScheduleTask pd r = none ∧
    parseFlat pd (rs1 ++ r :: rs2) = parseFlat pd (rs1 ++ rs2) := by
  have hnone : mkScheduleTask pd r = none := by
    unfold mkScheduleTask
    rcases h with h | h | h <;> rw [h] <;> simp [JSValue.truthy]
  refine ⟨hnone, ?_⟩
  unfold parseFlat
  rw [List.filterMap_append, List.filterMap_append, List.filterMap_cons, hnone]

/-- Witness for C10: a record with numeric UID 0 vanishes from pass 1. -/
theorem c10_falsy_uid_skipped_witness :
    mkScheduleTask (fun _ => 0) ⟨some (.num 0), none, none, none, none, none⟩ = none ∧
    parseFlat (fun _ => 0)
        ([] ++ ⟨some (.num 0), none, none, none, none, none⟩ :: []) =
      parseFlat (fun _ => 0) ([] ++ []) :=
  c10_falsy_uid_skipped (fun _ => 0) _ [] [] (Or.inr (Or.inr rfl))

theorem foldMin_spec (g : ScheduleTask → ℚ) :
    ∀ (l : List ScheduleTask) (init : ℚ),
      (l.foldl (fun m t => if g t < m then g t else m) init ≤ init) ∧
      (∀ u ∈ l, l.foldl (fun m t => if g t < m then g t else m) init ≤ g u) ∧
      (l.foldl (fun m t => if g t < m then g t else m) init = init ∨
        ∃ u ∈ l, l.foldl (fun m t => if g t < m then g t else m) init = g u) := by
  intro l
  induction l with
  | nil => intro init; simp
  | cons t rest ih =>
    intro init
    simp only [List.foldl_cons]
    by_cases h : g t < init
    · rw [if_pos h]
      obtain ⟨h1, h2, h3⟩ := ih (g t)
      refine ⟨le_trans h1 (le_of_lt h), ?_, ?_⟩
      · intro u hu
        rcases List.mem_cons.1 hu with rfl | hu'
        · exact h1
        · exact h2 u hu'
      · rcases h3 with he | ⟨u, hu, he⟩
        · exact Or.inr ⟨t, List.mem_cons_self t rest, he⟩
        · exact Or.inr ⟨u, List.mem_cons_of_mem t hu, he⟩
    · rw [if_neg h]
      obtain ⟨h1, h2, h3⟩ := ih init
      have hinit : init ≤ g t := le_of_not_lt h
      refine ⟨h1, ?_, ?_⟩
      · intro u hu
        rcases List.mem_cons.1 hu with rfl | hu'
        · exact le_trans h1 hinit
        · exact h2 u hu'
      · rcases h3 with he | ⟨u, hu, he⟩
        · exact Or.inl he
        · exact Or.inr ⟨u, List.mem_cons_of_mem t hu, he⟩

theorem foldMax_spec (g : ScheduleTask → ℚ) :
    ∀ (l : List ScheduleTask) (init : ℚ),
      (init ≤ l.foldl (fun m t => if m < g t then g t else m) init) ∧
      (∀ u ∈ l, g u ≤ l.foldl (fun m t => if m < g t then g t else m) init) ∧
      (l.foldl (fun m t => if m < g t then g t else m) init = init ∨
        ∃ u ∈ l, l.foldl (fun m t => if m < g t then g t else m) init = g u) := by
  intro l
  induction l with
  | nil => intro init; simp
  | cons t rest ih =>
    intro init
    simp only [List.foldl_cons]
    by_cases h : init < g t
    · rw [if_pos h]
      obtain ⟨h1, h2, h3⟩ := ih (g t)
      refine ⟨le_trans (le_of_lt h) h1, ?_, ?_⟩
      · intro u hu
        rcases List.mem_cons.1 hu with rfl | hu'
        · exact h1
        · exact h2 u hu'
      · rcases h3 with he | ⟨u, hu, he⟩
        · exact Or.inr ⟨t, List.mem_cons_self t rest, he⟩
        · exact Or.inr ⟨u, List.mem_cons_of_mem t hu, he⟩
    · rw [if_neg h]
      obtain ⟨h1, h2, h3⟩ := ih init
      have hinit : g t ≤ init := le_of_not_lt h
      refine ⟨h1, ?_, ?_⟩
      · intro u hu
        rcases List.mem_cons.1 hu with rfl | hu'
        · exact le_trans hinit h1
        · exact h2 u hu'
      · rcases h3 with he | ⟨u, hu, he⟩
        · exact Or.inl he
        · exact Or.inr ⟨u, List.mem_cons_of_mem t hu, he⟩

theorem flattenTasks_cons (t : ScheduleTask) (rest : List ScheduleTask) :
    flattenTasks (t :: rest)
      = t :: (flattenList t.children ++ flattenList rest) := by
  cases t
  simp [flattenTasks, flattenList, flattenOne, ScheduleTask.children]

/-- Counterexample for C4: calling `loadTasks` with a non-empty task list
while the engine is Playing leaves `isPlaying = true`; the engine is not
forced into the Stopped state. -/
theorem c4_counterexample :
    ¬ ((loadTasksTimeline ⟨0, 0, 100, true, 1⟩
        [ScheduleTask.mk "task_1" "1" "A" 5 10 1 none []]).isPlaying = false) := by
  decide

/-- C4 (amended): for every non-empty task list, `loadTasks` sets
`startDate` to the minimum `startDate` and `endDate` to the maximum
`endDate` over the flattened task tree and sets `currentDate = startDate`;
`isPlaying` is left unchanged — the engine stays in whatever play state it
was called in, rather than always terminating Stopped. -/
theorem c4_loadTasks_amended (st : TimelineState) (t : ScheduleTask)
    (rest : List ScheduleTask) :
    (∀ u ∈ flattenTasks (t :: rest),
      (loadTasksTimeline st (t :: rest)).startDate ≤ u.startDate) ∧
    (∃ u ∈ flattenTasks (t :: rest),
      (loadTasksTimeline st (t :: rest)).startDate = u.startDate) ∧
    (∀ u ∈ flattenTasks (t :: rest),
      u.endDate ≤ (loadTasksTimeline st (t :: rest)).endDate) ∧
    (∃ u ∈ flattenTasks (t :: rest),
      (loadTasksTimeline st (t :: rest)).endDate = u.endDate) ∧
    (loadTasksTimeline st (t :: rest)).currentDate
      = (loadTasksTimeline st (t :: rest)).startDate ∧
    (loadTasksTimeline st (t :: rest)).isPlaying = st.isPlaying := by
  unfold loadTasksTimeline calculateProjectTimeline
  rw [flattenTasks_cons]
  simp only []
  obtain ⟨hmin1, hmin2, hmin3⟩ := foldMin_spec ScheduleTask.startDate
    (t :: (flattenList t.children ++ flattenList rest)) t.startDate
  obtain ⟨hmax1, hmax2, hmax3⟩ := foldMax_spec ScheduleTask.endDate
    (t :: (flattenList t.children ++ flattenList rest)) t.endDate
  refine ⟨?_, ?_, ?_, ?_, trivial, trivial⟩
  · exact hmin2
  · rcases hmin3 with he | ⟨u, hu, he⟩
    · exact ⟨t, List.mem_cons_self t _, he⟩
    · exact ⟨u, hu, he⟩
  · exact hmax2
  · rcases hmax3 with he | ⟨u, hu, he⟩
    · exact ⟨t, List.mem_cons_self t _, he⟩
    · exact ⟨u, hu, he⟩

/-- C6: `doesEntityMatchRule` is total (it is a Lean function, hence never
throws) and: for `name_pattern` it returns false whenever the entity has no
(truthy) name or the pattern fails to compile; for `type_filter` it returns
true iff the entity's type is a member of the configured type set, and
false when the set is absent; for `property_match` and for any rule type
outside the declared union it returns false. -/
theorem c6_rule_matcher_total (cr : String → Option (String → Bool))
    (e : EntityInfo) (r : LinkRule) :
    (r.ruleType = .name_pattern → (e.name = none ∨ e.name = some "") →
      doesEntityMatchRule cr e r = false) ∧
    (r.ruleType = .name_pattern → ∀ pat, r.ruleConfig.pattern = some pat →
      cr pat = none → doesEntityMatchRule cr e r = false) ∧
    (r.ruleType = .type_filter → ∀ tys, r.ruleConfig.ifcTypes = some tys →
      (doesEntityMatchRule cr e r = true ↔ e.type ∈ tys)) ∧
    (r.ruleType = .type_filter → r.ruleConfig.ifcTypes = none →
      doesEntityMatchRule cr e r = false) ∧
    (r.ruleType = .property_match → doesEntityMatchRule cr e r = false) ∧
    (∀ s, r.ruleType = .other s → doesEntityMatchRule cr e r = false) := by
  refine ⟨?_, ?_, ?_, ?_, ?_, ?_⟩
  · intro hty hname
    unfold doesEntityMatchRule
    rw [hty]
    rcases hname with hname | hname <;> rw [hname] <;>
      cases hp : r.ruleConfig.pattern <;> simp
  · intro hty pat hpat hcr
    unfold doesEntityMatchRule
    rw [hty]
    cases hname : e.name with
    | none => simp
    | some nm =>
      rw [hpat]
      by_cases hblank : nm = "" ∨ pat = ""
      · simp [hblank]
      · simp [hblank, hcr]
  · intro hty tys htys
    unfold doesEntityMatchRule
    rw [hty, htys]
    simp
  · intro hty htys
    unfold doesEntityMatchRule
    rw [hty, htys]
    simp
  · intro hty
    unfold doesEntityMatchRule
    rw [hty]
  · intro s hty
    unfold doesEntityMatchRule
    rw [hty]

/-- Witness for C6: concrete rules exercising each clause. In particular a
`type_filter` rule with types `["IfcWall"]` matches an `IfcWall` entity and
not an `IfcDoor` one. -/
theorem c6_rule_matcher_total_witness :
    doesEntityMatchRule (fun _ => none)
      ⟨"g", 1, "IfcWall", none⟩
      ⟨"r1", "t", .name_pattern, ⟨none, none, some "wall", none⟩, true⟩ = false ∧
    (doesEntityMatchRule (fun _ => none)
      ⟨"g", 1, "IfcWall", some "Wall-7"⟩
      ⟨"r1", "t", .name_pattern, ⟨none, none, some "(", none⟩, true⟩ = false) ∧
    (doesEntityMatchRule (fun _ => none)
      ⟨"g", 1, "IfcWall", some "Wall-7"⟩
      ⟨"r2", "t", .type_filter, ⟨none, none, none, some ["IfcWall"]⟩, true⟩ = true) ∧
    (doesEntityMatchRule (fun _ => none)
      ⟨"g", 2, "IfcDoor", some "Door-1"⟩
      ⟨"r2", "t", .type_filter, ⟨none, none, none, some ["IfcWall"]⟩, true⟩ = false) ∧
    (doesEntityMatchRule (fun _ => none)
      ⟨"g", 1, "IfcWall", some "Wall-7"⟩
      ⟨"r3", "t", .type_filter, ⟨none, none, none, none⟩, true⟩ = false) ∧
    (doesEntityMatchRule (fun _ => none)
      ⟨"g", 1, "IfcWall", some "Wall-7"⟩
      ⟨"r4", "t", .property_match, ⟨some "p", some "v", none, none⟩, true⟩ = false) ∧
    (doesEntityMatchRule (fun _ => none)
      ⟨"g", 1, "IfcWall", some "Wall-7"⟩
      ⟨"r5", "t", .other "fuzzy", ⟨none, none, none, none⟩, true⟩ = false) := by
  refine ⟨?_, ?_, ?_, ?_, ?_, ?_, ?_⟩
  · exact (c6_rule_matcher_total (fun _ => none) ⟨"g", 1, "IfcWall", none⟩
      ⟨"r1", "t", .name_pattern, ⟨none, none, some "wall", none⟩, true⟩).1
      rfl (Or.inl rfl)
  · exact (c6_rule_matcher_total (fun _ => none) ⟨"g", 1, "IfcWall", some "Wall-7"⟩
      ⟨"r1", "t", .name_pattern, ⟨none, none, some "(", none⟩, true⟩).2.1
      rfl "(" rfl rfl
  · exact ((c6_rule_matcher_total (fun _ => none) ⟨"g", 1, "IfcWall", some "Wall-7"⟩
      ⟨"r2", "t", .type_filter, ⟨none, none, none, some ["IfcWall"]⟩, true⟩).2.2.1
      rfl ["IfcWall"] rfl).2 (by decide)
  · have h := (c6_rule_matcher_total (fun _ => none) ⟨"g", 2, "IfcDoor", some "Door-1"⟩
      ⟨"r2", "t", .type_filter, ⟨none, none, none, some ["IfcWall"]⟩, true⟩).2.2.1
      rfl ["IfcWall"] rfl
    cases hm : doesEntityMatchRule (fun _ => none)
      ⟨"g", 2, "IfcDoor", some "Door-1"⟩
      ⟨"r2", "t", .type_filter, ⟨none, none, none, some ["IfcWall"]⟩, true⟩ with
    | false => rfl
    | true => exact absurd (h.1 hm) (by decide)
  · exact (c6_rule_matcher_total (fun _ => none) ⟨"g", 1, "IfcWall", some "Wall-7"⟩
      ⟨"r3", "t", .type_filter, ⟨none, none, none, none⟩, true⟩).2.2.2.1 rfl rfl
  · exact (c6_rule_matcher_total (fun _ => none) ⟨"g", 1, "IfcWall", some "Wall-7"⟩
      ⟨"r4", "t", .property_match, ⟨some "p", some "v", none, none⟩, true⟩).2.2.2.2.1 rfl
  · exact (c6_rule_matcher_total (fun _ => none) ⟨"g", 1, "IfcWall", some "Wall-7"⟩
      ⟨"r5", "t", .other "fuzzy", ⟨none, none, none, none⟩, true⟩).2.2.2.2.2 "fuzzy" rfl

theorem storeGet_set_self (st : LinkStore) (k : String)
    (v : List TaskEntityLink) : storeGet (storeSet st k v) k = some v := by
  induction st with
  | nil => simp [storeSet, storeGet]
  | cons p rest ih =>
    obtain ⟨k', v'⟩ := p
    by_cases h : k' = k
    · simp [storeSet, storeGet, h]
    · simp [storeSet, storeGet, h, ih]

theorem storeGet_set_ne (st : LinkStore) {k k2 : String}
    (v : List TaskEntityLink) (h : k ≠ k2) :
    storeGet (storeSet st k v) k2 = storeGet st k2 := by
  induction st with
  | nil => simp [storeSet, storeGet, h]
  | cons p rest ih =>
    obtain ⟨k', v'⟩ := p
    by_cases hk : k' = k
    · subst hk
      simp [storeSet, storeGet, h]
    · simp [storeSet, storeGet, hk, ih]

theorem countPair_ensureEntry (st : LinkStore) (tid' tid : String) (eid : Int) :
    countPair (if (storeGet st tid').isSome then st else storeSet st tid' [])
      tid eid = countPair st tid eid := by
  by_cases h : (storeGet st tid').isSome
  · rw [if_pos h]
  · rw [if_neg h]
    unfold countPair
    by_cases ht : tid' = tid
    · subst ht
      rw [storeGet_set_self]
      rw [Option.not_isSome_iff_eq_none.1 h]
      simp
    · rw [storeGet_set_ne _ _ ht]

/-- The three execution paths of `linkEntityToTask`: no map entry yet
(create entry then append), entry present with the entity already linked
(no-op, no notification), entry present without the entity (append and
notify). -/
theorem linkEntityToTask_cases (st : LinkStore) (tid : String)
    (e : EntityInfo) (now : Int) :
    (storeGet st tid = none ∧
      linkEntityToTask st tid e now
        = (storeSet (storeSet st tid []) tid [mkLink tid e now],
            some (tid, [mkLink tid e now]))) ∨
    (∃ ls, storeGet st tid = some ls ∧
      ls.any (fun l => l.entityExpressId == e.expressId) = true ∧
      linkEntityToTask st tid e now = (st, none)) ∨
    (∃ ls, storeGet st tid = some ls ∧
      ls.any (fun l => l.entityExpressId == e.expressId) = false ∧
      linkEntityToTask st tid e now
        = (storeSet st tid (ls ++ [mkLink tid e now]),
            some (tid, ls ++ [mkLink tid e now]))) := by
  cases hget : storeGet st tid with
  | none =>
    left
    refine ⟨rfl, ?_⟩
    unfold linkEntityToTask
    simp [hget, storeGet_set_self]
  | some ls =>
    by_cases hex : ls.any (fun l => l.entityExpressId == e.expressId)
    · right; left
      refine ⟨ls, rfl, hex, ?_⟩
      unfold linkEntityToTask
      simp [hget, hex]
    · right; right
      refine ⟨ls, rfl, Bool.eq_false_iff.2 hex, ?_⟩
      unfold linkEntityToTask
      simp [hget, hex]

/-- Effect of `linkEntityToTask` on the per-pair link count: the linked
pair's count goes from 0 to 1, every other count is unchanged. -/
theorem countPair_link (st : LinkStore) (tid' : String) (e : EntityInfo)
    (now : Int) (tid : String) (eid : Int) :
    countPair (linkEntityToTask st tid' e now).1 tid eid =
      if tid' = tid ∧ e.expressId = eid ∧ countPair st tid eid = 0
      then 1 else countPair st tid eid := by
  rcases linkEntityToTask_cases st tid' e now with
    ⟨hget, heq⟩ | ⟨ls, hget, hex, heq⟩ | ⟨ls, hget, hex, heq⟩
  · rw [heq]
    by_cases ht : tid' = tid
    · subst ht
      have hc0 : countPair st tid' eid = 0 := by
        unfold countPair
        rw [hget]
        simp
      by_cases he : e.expressId = eid
      · rw [if_pos ⟨rfl, he, hc0⟩]
        unfold countPair
        rw [storeGet_set_self]
        simp [mkLink, he]
      · rw [if_neg (fun hc => he hc.2.1), hc0]
        unfold countPair
        rw [storeGet_set_self]
        simp [mkLink, he]
    · rw [if_neg (fun hc => ht hc.1)]
      unfold countPair
      rw [storeGet_set_ne _ _ ht, storeGet_set_ne _ _ ht]
  · have hpos : countPair st tid' e.expressId ≠ 0 := by
      unfold countPair
      rw [hget]
      simp only [Option.getD_some]
      obtain ⟨x, hx, hpx⟩ := List.any_eq_true.1 hex
      have hpos0 : 0 < ls.countP (fun l => l.entityExpressId == e.expressId) :=
        List.countP_pos_iff.2 ⟨x, hx, hpx⟩
      omega
    have hcond : ¬(tid' = tid ∧ e.expressId = eid ∧ countPair st tid eid = 0) := by
      rintro ⟨rfl, rfl, h3⟩
      exact hpos h3
    rw [heq, if_neg hcond]
  · have hc0 : List.countP (fun l => l.entityExpressId == e.expressId) ls = 0 := by
      rw [List.countP_eq_zero]
      intro a ha hpa
      rw [List.any_eq_true.2 ⟨a, ha, hpa⟩] at hex
      cases hex
    have hstc : ∀ x : Int, countPair st tid' x
        = List.countP (fun l => l.entityExpressId == x) ls := by
      intro x
      unfold countPair
      rw [hget]
      rfl
    rw [heq]
    by_cases ht : tid' = tid
    · subst ht
      by_cases he : e.expressId = eid
      · subst he
        rw [if_pos ⟨rfl, rfl, by rw [hstc]; exact hc0⟩]
        unfold countPair
        rw [storeGet_set_self]
        simp only [Option.getD_some]
        rw [List.countP_append, hc0]
        simp [mkLink]
      · rw [if_neg (fun hc => he hc.2.1)]
        unfold countPair
        rw [storeGet_set_self, hget]
        simp only [Option.getD_some]
        rw [List.countP_append]
        simp [mkLink, he]
    · rw [if_neg (fun hc => ht hc.1)]
      unfold countPair
      rw [storeGet_set_ne _ _ ht]

/-- After any call to `linkEntityToTask`, the task has a link list and it
contains the entity's expressId. -/
theorem link_result_contains (st : LinkStore) (tid : String) (e : EntityInfo)
    (n1 : Int) :
    ∃ ls, storeGet (linkEntityToTask st tid e n1).1 tid = some ls ∧
      ls.any (fun l => l.entityExpressId == e.expressId) = true := by
  rcases linkEntityToTask_cases st tid e n1 with
    ⟨hget, heq⟩ | ⟨ls, hget, hex, heq⟩ | ⟨ls, hget, hex, heq⟩
  · rw [heq]
    refine ⟨[mkLink tid e n1], storeGet_set_self _ tid _, ?_⟩
    simp [mkLink]
  · rw [heq]
    exact ⟨ls, hget, hex⟩
  · rw [heq]
    refine ⟨ls ++ [mkLink tid e n1], storeGet_set_self _ tid _, ?_⟩
    simp [mkLink]

/-- A second `linkEntityToTask` with the same entity is a strict no-op: no
notification and an unchanged store. -/
theorem linkEntityToTask_twice (st : LinkStore) (tid : String)
    (e : EntityInfo) (n1 n2 : Int) :
    (linkEntityToTask (linkEntityToTask st tid e n1).1 tid e n2).2 = none ∧
    (linkEntityToTask (linkEntityToTask st tid e n1).1 tid e n2).1
      = (linkEntityToTask st tid e n1).1 := by
  obtain ⟨ls, hget, hex⟩ := link_result_contains st tid e n1
  rcases linkEntityToTask_cases (linkEntityToTask st tid e n1).1 tid e n2 with
    ⟨hget2, heq2⟩ | ⟨ls2, hget2, hex2, heq2⟩ | ⟨ls2, hget2, hex2, heq2⟩
  · rw [hget] at hget2
    cases hget2
  · rw [heq2]
    exact ⟨rfl, rfl⟩
  · rw [hget] at hget2
    injection hget2 with h
    subst h
    rw [hex] at hex2
    cases hex2

theorem countPair_link_ge (st : LinkStore) (tid' : String) (e : EntityInfo)
    (now : Int) (tid : String) (eid : Int) :
    countPair st tid eid ≤ countPair (linkEntityToTask st tid' e now).1 tid eid := by
  rw [countPair_link]
  split_ifs with hc
  · obtain ⟨-, -, h3⟩ := hc
    omega
  · exact le_refl _

theorem countPair_link_le_one (st : LinkStore) (tid' : String) (e : EntityInfo)
    (now : Int) (tid : String) (eid : Int)
    (h : countPair st tid eid ≤ 1) :
    countPair (linkEntityToTask st tid' e now).1 tid eid ≤ 1 := by
  rw [countPair_link]
  split_ifs with hc
  · exact le_refl _
  · exact h

theorem countPair_link_hit (st : LinkStore) (tid : String) (e : EntityInfo)
    (now : Int) (eid : Int) (he : e.expressId = eid) :
    1 ≤ countPair (linkEntityToTask st tid e now).1 tid eid := by
  rw [countPair_link]
  split_ifs with hc
  · exact le_refl _
  · have hne : countPair st tid eid ≠ 0 := fun h0 => hc ⟨rfl, he, h0⟩
    omega

theorem applyRule_cons (cr : String → Option (String → Bool)) (rule : LinkRule)
    (st : LinkStore) (tid : String) (e : EntityInfo) (rest : List EntityInfo)
    (now : Int) :
    applyRuleToEntities cr rule st tid (e :: rest) now
      = applyRuleToEntities cr rule
          (if doesEntityMatchRule cr e rule then
            (linkEntityToTask st tid e now).1 else st)
          tid rest now := rfl

theorem applyRule_mono (cr : String → Option (String → Bool)) (rule : LinkRule)
    (tid : String) (now : Int) (tidq : String) (eid : Int) :
    ∀ (es : List EntityInfo) (st : LinkStore),
      countPair st tidq eid
        ≤ countPair (applyRuleToEntities cr rule st tid es now) tidq eid := by
  intro es
  induction es with
  | nil => intro st; exact le_refl _
  | cons e rest ih =>
    intro st
    rw [applyRule_cons]
    by_cases hm : doesEntityMatchRule cr e rule
    · rw [if_pos hm]
      exact le_trans (countPair_link_ge st tid e now tidq eid) (ih _)
    · rw [if_neg hm]
      exact ih st

theorem applyRule_le_one (cr : String → Option (String → Bool))
    (rule : LinkRule) (tid : String) (now : Int) (tidq : String) (eid : Int) :
    ∀ (es : List EntityInfo) (st : LinkStore), countPair st tidq eid ≤ 1 →
      countPair (applyRuleToEntities cr rule st tid es now) tidq eid ≤ 1 := by
  intro es
  induction es with
  | nil => intro st h; exact h
  | cons e rest ih =>
    intro st h
    rw [applyRule_cons]
    by_cases hm : doesEntityMatchRule cr e rule
    · rw [if_pos hm]
      exact ih _ (countPair_link_le_one st tid e now tidq eid h)
    · rw [if_neg hm]
      exact ih st h

theorem applyRule_hit (cr : String → Option (String → Bool)) (rule : LinkRule)
    (tid : String) (now : Int) (e : EntityInfo) (eid : Int)
    (hm : doesEntityMatchRule cr e rule = true) (he : e.expressId = eid) :
    ∀ (es : List EntityInfo) (st : LinkStore), e ∈ es →
      1 ≤ countPair (applyRuleToEntities cr rule st tid es now) tid eid := by
  intro es
  induction es with
  | nil => intro st hmem; cases hmem
  | cons e2 rest ih =>
    intro st hmem
    rw [applyRule_cons]
    rcases List.mem_cons.1 hmem with rfl | hmem2
    · rw [if_pos hm]
      exact le_trans (countPair_link_hit st tid e now eid he)
        (applyRule_mono cr rule tid now tid eid rest _)
    · by_cases hm2 : doesEntityMatchRule cr e2 rule
      · rw [if_pos hm2]
        exact ih _ hmem2
      · rw [if_neg hm2]
        exact ih st hmem2

theorem rulesFold_cons (cr : String → Option (String → Bool)) (r : LinkRule)
    (rest : List LinkRule) (st : LinkStore) (tid : String)
    (es : List EntityInfo) (now : Int) :
    (r :: rest).foldl
        (fun s rule => if rule.isActive then
          applyRuleToEntities cr rule s tid es now else s) st
      = rest.foldl
          (fun s rule => if rule.isActive then
            applyRuleToEntities cr rule s tid es now else s)
          (if r.isActive then applyRuleToEntities cr r st tid es now else st) := rfl

theorem rulesFold_mono (cr : String → Option (String → Bool)) (tid : String)
    (es : List EntityInfo) (now : Int) (tidq : String) (eid : Int) :
    ∀ (rules : List LinkRule) (st : LinkStore),
      countPair st tidq eid ≤ countPair
        (rules.foldl (fun s rule => if rule.isActive then
          applyRuleToEntities cr rule s tid es now else s) st) tidq eid := by
  intro rules
  induction rules with
  | nil => intro st; exact le_refl _
  | cons r rest ih =>
    intro st
    rw [rulesFold_cons]
    by_cases ha : r.isActive
    · rw [if_pos ha]
      exact le_trans (applyRule_mono cr r tid now tidq eid es st) (ih _)
    · rw [if_neg ha]
      exact ih st

theorem rulesFold_le_one (cr : String → Option (String → Bool)) (tid : String)
    (es : List EntityInfo) (now : Int) (tidq : String) (eid : Int) :
    ∀ (rules : List LinkRule) (st : LinkStore), countPair st tidq eid ≤ 1 →
      countPair
        (rules.foldl (fun s rule => if rule.isActive then
          applyRuleToEntities cr rule s tid es now else s) st) tidq eid ≤ 1 := by
  intro rules
  induction rules with
  | nil => intro st h; exact h
  | cons r rest ih =>
    intro st h
    rw [rulesFold_cons]
    by_cases ha : r.isActive
    · rw [if_pos ha]
      exact ih _ (applyRule_le_one cr r tid now tidq eid es st h)
    · rw [if_neg ha]
      exact ih st h

theorem rulesFold_hit (cr : String → Option (String → Bool)) (tid : String)
    (es : List EntityInfo) (now : Int) (e : EntityInfo) (eid : Int)
    (he : e.expressId = eid) (hmem : e ∈ es) :
    ∀ (rules : List LinkRule) (st : LinkStore),
      (∃ rule ∈ rules, rule.isActive = true ∧
        doesEntityMatchRule cr e rule = true) →
      1 ≤ countPair
        (rules.foldl (fun s rule => if rule.isActive then
          applyRuleToEntities cr rule s tid es now else s) st) tid eid := by
  intro rules
  induction rules with
  | nil =>
    intro st hex
    obtain ⟨rule, hr, -⟩ := hex
    cases hr
  | cons r rest ih =>
    intro st hex
    rw [rulesFold_cons]
    obtain ⟨rule, hr, hact, hm⟩ := hex
    rcases List.mem_cons.1 hr with rfl | hr2
    · rw [if_pos hact]
      exact le_trans (applyRule_hit cr rule tid now e eid hm he es st hmem)
        (rulesFold_mono cr tid es now tid eid rest _)
    · by_cases ha : r.isActive
      · rw [if_pos ha]
        exact ih _ ⟨rule, hr2, hact, hm⟩
      · rw [if_neg ha]
        exact ih st ⟨rule, hr2, hact, hm⟩

/-- C2: linking the same entity to the same task twice leaves exactly one
link for the pair and the second call produces no change notification and
no state change; consequently, during `applyRulesToEntities` an entity of a
task matched by at least one (hence by several) active rules is linked
exactly once. -/
theorem c2_idempotent_linking (st : LinkStore) (tid : String) (e : EntityInfo)
    (n1 n2 now : Int) (cr : String → Option (String → Bool)) (rs : RuleStore)
    (es : List EntityInfo) :
    (linkEntityToTask (linkEntityToTask st tid e n1).1 tid e n2).2 = none ∧
    (linkEntityToTask (linkEntityToTask st tid e n1).1 tid e n2).1
      = (linkEntityToTask st tid e n1).1 ∧
    (countPair st tid e.expressId ≤ 1 →
      countPair (linkEntityToTask (linkEntityToTask st tid e n1).1 tid e n2).1
        tid e.expressId = 1) ∧
    (countPair st tid e.expressId = 0 → e ∈ es →
      (∃ rule ∈ getTaskRules rs tid, rule.isActive = true ∧
        doesEntityMatchRule cr e rule = true) →
      countPair (applyRulesToEntities cr rs st tid es now) tid e.expressId = 1) := by
  obtain ⟨hnotif, hstate⟩ := linkEntityToTask_twice st tid e n1 n2
  refine ⟨hnotif, hstate, ?_, ?_⟩
  · intro hle
    rw [hstate]
    have h1 := countPair_link st tid e n1 tid e.expressId
    by_cases hc : countPair st tid e.expressId = 0
    · rw [h1, if_pos ⟨rfl, rfl, hc⟩]
    · have hcv : countPair st tid e.expressId = 1 := by omega
      rw [h1, if_neg (fun h => hc h.2.2), hcv]
  · intro hzero hmem hex
    have hle : countPair
        (applyRulesToEntities cr rs st tid es now) tid e.expressId ≤ 1 :=
      rulesFold_le_one cr tid es now tid e.expressId
        (getTaskRules rs tid) st (by omega)
    have hge : 1 ≤ countPair
        (applyRulesToEntities cr rs st tid es now) tid e.expressId :=
      rulesFold_hit cr tid es now e e.expressId rfl hmem
        (getTaskRules rs tid) st hex
    omega

/-- Witness for C2: from an empty store, link entity 7 to task `t1` twice;
and apply two active rules both matching an `IfcWall` entity. -/
theorem c2_idempotent_linking_witness :
    (linkEntityToTask
      (linkEntityToTask [] "t1" ⟨"g7", 7, "IfcWall", some "W"⟩ 0).1
      "t1" ⟨"g7", 7, "IfcWall", some "W"⟩ 1).2 = none ∧
    countPair
      (linkEntityToTask
        (linkEntityToTask [] "t1" ⟨"g7", 7, "IfcWall", some "W"⟩ 0).1
        "t1" ⟨"g7", 7, "IfcWall", some "W"⟩ 1).1 "t1" 7 = 1 ∧
    countPair
      (applyRulesToEntities (fun _ => none)
        [("t1",
          [⟨"r1", "t1", .type_filter, ⟨none, none, none, some ["IfcWall"]⟩, true⟩,
           ⟨"r2", "t1", .type_filter,
             ⟨none, none, none, some ["IfcWall", "IfcDoor"]⟩, true⟩])]
        [] "t1" [⟨"g7", 7, "IfcWall", some "W"⟩] 5) "t1" 7 = 1 := by
  have h := c2_idempotent_linking [] "t1" ⟨"g7", 7, "IfcWall", some "W"⟩ 0 1 5
    (fun _ => none)
    [("t1",
      [⟨"r1", "t1", .type_filter, ⟨none, none, none, some ["IfcWall"]⟩, true⟩,
       ⟨"r2", "t1", .type_filter,
         ⟨none, none, none, some ["IfcWall", "IfcDoor"]⟩, true⟩])]
    [⟨"g7", 7, "IfcWall", some "W"⟩]
  refine ⟨h.1, h.2.2.1 (by decide), h.2.2.2 (by decide) (by decide) ?_⟩
  refine ⟨⟨"r1", "t1", .type_filter, ⟨none, none, none, some ["IfcWall"]⟩, true⟩,
    ?_, rfl, by decide⟩
  simp [getTaskRules]

/-- Counterexample for C7: on a store with no link list for the task — so
in particular no matching link exists — `unlinkEntityFromTask` returns
before notifying: the notification payload is `none`, contradicting
"in all cases notifies collaborators". -/
theorem c7_counterexample :
    storeGet ([] : LinkStore) "t1" = none ∧
    (unlinkEntityFromTask [] "t1" 1).2 = none :=
  ⟨rfl, rfl⟩

/-- C7 (amended): when the task has a link list (even an empty one),
`unlink` stores the list filtered of the given expressId — removing the
matching link if present — and notifies with the resulting (possibly
unchanged) list; when the task has no link list at all, it does nothing
and does not notify. -/
theorem c7_unlink_amended (st : LinkStore) (tid : String) (eid : Int) :
    (storeGet st tid = none → unlinkEntityFromTask st tid eid = (st, none)) ∧
    (∀ ls, storeGet st tid = some ls →
      unlinkEntityFromTask st tid eid
        = (storeSet st tid (ls.filter (fun l => l.entityExpressId ≠ eid)),
            some (tid, ls.filter (fun l => l.entityExpressId ≠ eid))) ∧
      ∀ l, l ∈ ls.filter (fun l => l.entityExpressId ≠ eid)
        ↔ (l ∈ ls ∧ l.entityExpressId ≠ eid)) := by
  constructor
  · intro h
    unfold unlinkEntityFromTask
    rw [h]
  · intro ls h
    constructor
    · unfold unlinkEntityFromTask
      rw [h]
    · intro l
      simp [List.mem_filter]

/-- Witness for C7 (amended): a task with one link for expressId 1 loses it
and the collaborators are notified with the emptied list; a task with a
link list not containing expressId 9 keeps its list and is still
notified. -/
theorem c7_unlink_amended_witness :
    unlinkEntityFromTask [("t1", [mkLink "t1" ⟨"g1", 1, "IfcWall", none⟩ 0])]
        "t1" 1
      = (storeSet [("t1", [mkLink "t1" ⟨"g1", 1, "IfcWall", none⟩ 0])] "t1"
          [], some ("t1", [])) ∧
    unlinkEntityFromTask [("t1", [mkLink "t1" ⟨"g1", 1, "IfcWall", none⟩ 0])]
        "t1" 9
      = (storeSet [("t1", [mkLink "t1" ⟨"g1", 1, "IfcWall", none⟩ 0])] "t1"
          [mkLink "t1" ⟨"g1", 1, "IfcWall", none⟩ 0],
          some ("t1", [mkLink "t1" ⟨"g1", 1, "IfcWall", none⟩ 0])) := by
  have h1 := (c7_unlink_amended
    [("t1", [mkLink "t1" ⟨"g1", 1, "IfcWall", none⟩ 0])] "t1" 1).2
    [mkLink "t1" ⟨"g1", 1, "IfcWall", none⟩ 0] (by decide)
  have h2 := (c7_unlink_amended
    [("t1", [mkLink "t1" ⟨"g1", 1, "IfcWall", none⟩ 0])] "t1" 9).2
    [mkLink "t1" ⟨"g1", 1, "IfcWall", none⟩ 0] (by decide)
  constructor
  · have := h1.1
    rw [this]
    congr 1 <;> decide
  · have := h2.1
    rw [this]
    congr 1 <;> decide

theorem allManual_storeSet {st : LinkStore} {k : String}
    {v : List TaskEntityLink} (hst : allManual st)
    (hv : ∀ l ∈ v, l.linkType = LinkType.manual) :
    allManual (storeSet st k v) := by
  induction st with
  | nil =>
    intro p hp l hl
    simp [storeSet] at hp
    subst hp
    exact hv l hl
  | cons q rest ih =>
    obtain ⟨k', v'⟩ := q
    have hrest : allManual rest := fun p hp l hl =>
      hst p (List.mem_cons_of_mem _ hp) l hl
    by_cases hk : k' = k
    · intro p hp l hl
      simp only [storeSet, if_pos hk] at hp
      rcases List.mem_cons.1 hp with rfl | hp2
      · exact hv l hl
      · exact hst p (List.mem_cons_of_mem _ hp2) l hl
    · intro p hp l hl
      simp only [storeSet, if_neg hk] at hp
      rcases List.mem_cons.1 hp with rfl | hp2
      · exact hst (k', v') (List.mem_cons_self _ _) l hl
      · exact ih hrest p hp2 l hl

theorem allManual_of_get {st : LinkStore} {k : String}
    {ls : List TaskEntityLink} (hst : allManual st)
    (h : storeGet st k = some ls) :
    ∀ l ∈ ls, l.linkType = LinkType.manual := by
  induction st with
  | nil => simp [storeGet] at h
  | cons q rest ih =>
    obtain ⟨k', v'⟩ := q
    have hrest : allManual rest := fun p hp l hl =>
      hst p (List.mem_cons_of_mem _ hp) l hl
    by_cases hk : k' = k
    · simp only [storeGet, if_pos hk] at h
      injection h with h
      subst h
      exact fun l hl => hst (k', v') (List.mem_cons_self _ _) l hl
    · simp only [storeGet, if_neg hk] at h
      exact ih hrest h

theorem allManual_link {st : LinkStore} (hst : allManual st) (tid : String)
    (e : EntityInfo) (now : Int) :
    allManual (linkEntityToTask st tid e now).1 := by
  rcases linkEntityToTask_cases st tid e now with
    ⟨hget, heq⟩ | ⟨ls, hget, hex, heq⟩ | ⟨ls, hget, hex, heq⟩
  · rw [heq]
    apply allManual_storeSet (allManual_storeSet hst (by simp))
    intro l hl
    simp at hl
    subst hl
    rfl
  · rw [heq]
    exact hst
  · rw [heq]
    apply allManual_storeSet hst
    intro l hl
    rcases List.mem_append.1 hl with hl2 | hl2
    · exact allManual_of_get hst hget l hl2
    · simp at hl2
      subst hl2
      rfl

theorem allManual_unlink {st : LinkStore} (hst : allManual st) (tid : String)
    (eid : Int) : allManual (unlinkEntityFromTask st tid eid).1 := by
  unfold unlinkEntityFromTask
  cases hget : storeGet st tid with
  | none => exact hst
  | some ls =>
    simp only []
    apply allManual_storeSet hst
    intro l hl
    exact allManual_of_get hst hget l (List.mem_of_mem_filter hl)

theorem allManual_applyRule {cr : String → Option (String → Bool)}
    {rule : LinkRule} {tid : String} {now : Int} :
    ∀ (es : List EntityInfo) (st : LinkStore), allManual st →
      allManual (applyRuleToEntities cr rule st tid es now) := by
  intro es
  induction es with
  | nil => intro st h; exact h
  | cons e rest ih =>
    intro st h
    rw [applyRule_cons]
    by_cases hm : doesEntityMatchRule cr e rule
    · rw [if_pos hm]
      exact ih _ (allManual_link h tid e now)
    · rw [if_neg hm]
      exact ih st h

theorem allManual_rulesFold {cr : String → Option (String → Bool)}
    {tid : String} {es : List EntityInfo} {now : Int} :
    ∀ (rules : List LinkRule) (st : LinkStore), allManual st →
      allManual (rules.foldl
        (fun s rule => if rule.isActive then
          applyRuleToEntities cr rule s tid es now else s) st) := by
  intro rules
  induction rules with
  | nil => intro st h; exact h
  | cons r rest ih =>
    intro st h
    rw [rulesFold_cons]
    by_cases ha : r.isActive
    · rw [if_pos ha]
      exact ih _ (allManual_applyRule es st h)
    · rw [if_neg ha]
      exact ih st h

/-- C9: every link ever stored is `manual`: the constructed link object
carries `linkType = manual`, and every store operation — manual linking,
unlinking, and rule application (which routes through manual linking) —
preserves the all-manual invariant; no operation ever creates a
`rule`-typed link. -/
theorem c9_all_links_manual (st : LinkStore) (tid : String) (e : EntityInfo)
    (now : Int) (eid : Int) (cr : String → Option (String → Bool))
    (rs : RuleStore) (es : List EntityInfo) :
    (mkLink tid e now).linkType = LinkType.manual ∧
    (allManual st → allManual (linkEntityToTask st tid e now).1) ∧
    (allManual st → allManual (unlinkEntityFromTask st tid eid).1) ∧
    (allManual st → allManual (applyRulesToEntities cr rs st tid es now)) := by
  refine ⟨rfl, ?_, ?_, ?_⟩
  · intro h
    exact allManual_link h tid e now
  · intro h
    exact allManual_unlink h tid eid
  · intro h
    exact allManual_rulesFold (getTaskRules rs tid) st h

/-- Witness for C9: starting from the empty store, rule application over a
matching entity yields a store whose links are all manual. -/
theorem c9_all_links_manual_witness :
    allManual (applyRulesToEntities (fun _ => none)
      [("t1", [⟨"r1", "t1", .type_filter,
        ⟨none, none, none, some ["IfcWall"]⟩, true⟩])]
      [] "t1" [⟨"g7", 7, "IfcWall", some "W"⟩] 0) :=
  (c9_all_links_manual [] "t1" ⟨"g7", 7, "IfcWall", some "W"⟩ 0 7
    (fun _ => none)
    [("t1", [⟨"r1", "t1", .type_filter,
      ⟨none, none, none, some ["IfcWall"]⟩, true⟩])]
    [⟨"g7", 7, "IfcWall", some "W"⟩]).2.2.2
    (by intro p hp l hl; cases hp)

/-- Witness for C4 (amended): loading two root tasks spanning [3,8] and
[5,10] while Playing bounds the window by their dates and leaves the engine
playing. -/
theorem c4_loadTasks_amended_witness :
    ((loadTasksTimeline ⟨0, 0, 100, true, 1⟩
        [.mk "task_1" "1" "A" 5 10 1 none [],
         .mk "task_2" "2" "B" 3 8 1 none []]).startDate
      ≤ (ScheduleTask.mk "task_1" "1" "A" 5 10 1 none []).startDate) ∧
    (loadTasksTimeline ⟨0, 0, 100, true, 1⟩
        [.mk "task_1" "1" "A" 5 10 1 none [],
         .mk "task_2" "2" "B" 3 8 1 none []]).currentDate
      = (loadTasksTimeline ⟨0, 0, 100, true, 1⟩
        [.mk "task_1" "1" "A" 5 10 1 none [],
         .mk "task_2" "2" "B" 3 8 1 none []]).startDate ∧
    (loadTasksTimeline ⟨0, 0, 100, true, 1⟩
        [.mk "task_1" "1" "A" 5 10 1 none [],
         .mk "task_2" "2" "B" 3 8 1 none []]).isPlaying = true := by
  have h := c4_loadTasks_amended ⟨0, 0, 100, true, 1⟩
    (.mk "task_1" "1" "A" 5 10 1 none [])
    [.mk "task_2" "2" "B" 3 8 1 none []]
  refine ⟨h.1 _ ?_, h.2.2.2.2.1, h.2.2.2.2.2⟩
  rw [flattenTasks_cons]
  exact List.mem_cons_self _ _
